import Mathlib

/-!
Verification development for the PipeliningTool block-diagram editor
(`py_pipelingtool.py`).  The diagram model, channel assignment, layout
geometry and the JSON serialization codec are embedded shallowly: blocks
are records of their fields, Python object references to blocks become
indices into the diagram's block list, and the per-block connection lists
of the source (which always agree with the diagram-wide connection list,
each connection being registered with both endpoints) are derived by
filtering the diagram's connection list on the endpoint indices.
Canvas coordinates are rationals; Python ints are `Int`.
-/

namespace PipeTool

/-- A hardware block (`class Block`): position, size, display name and
optional display number.  The canvas handles and selection flag of the
source are rendering state and are not modelled. -/
structure Block where
  x : ℚ
  y : ℚ
  width : ℚ
  height : ℚ
  name : String
  number : Option Int
deriving DecidableEq

/-- A FIFO connection (`class FIFOConnection`); `src` and `dst` are the
indices of the source and target block in the diagram's block list,
modelling the Python object references `source_block` / `target_block`. -/
structure FIFOConnection where
  name : String
  src : Nat
  dst : Nat
  src_ch_num : Int
  dst_ch_num : Int
  depth : Int
  width : Int
deriving DecidableEq

/-- The diagram state held by `HardwareDesignGUI`: `self.blocks` and
`self.connections`. -/
structure Diagram where
  blocks : List Block
  conns : List FIFOConnection
deriving DecidableEq

/-- The empty diagram; also the state after `new_design` (which clears
`self.blocks` and `self.connections`). -/
def emptyDiagram : Diagram := ⟨[], []⟩

/-- The `src_ch_num` values of the connections whose source block is block
`b`, in list order: what `get_next_available_src_channel` collects into
`used_channels` when it scans `self.connections` filtering on
`conn.source_block == self`. -/
def used_src_channels (d : Diagram) (b : Nat) : List Int :=
  (d.conns.filter (fun c => c.src = b)).map (fun c => c.src_ch_num)

/-- The `dst_ch_num` values of the connections whose target block is block
`b` (per `get_next_available_dst_channel`). -/
def used_dst_channels (d : Diagram) (b : Nat) : List Int :=
  (d.conns.filter (fun c => c.dst = b)).map (fun c => c.dst_ch_num)

/-- The `while channel_num in used_channels: channel_num += 1` scan of
`get_next_available_src_channel`, starting at `n`.  The fuel argument
makes the recursion structural; `used.length + 1` steps always suffice. -/
def lowestFree (used : List Int) (n : Nat) : Nat → Nat
  | 0 => n
  | fuel + 1 => if (n : Int) ∈ used then lowestFree used (n + 1) fuel else n

/-- The lowest non-negative integer not in `used`, as computed by the
channel scan loops of the source. -/
def nextFree (used : List Int) : Int :=
  (lowestFree used 0 (used.length + 1) : Int)

/-- `Block.get_next_available_src_channel` for block `b` of diagram `d`. -/
def get_next_available_src_channel (d : Diagram) (b : Nat) : Int :=
  nextFree (used_src_channels d b)

/-- `Block.get_next_available_dst_channel` for block `b` of diagram `d`. -/
def get_next_available_dst_channel (d : Diagram) (b : Nat) : Int :=
  nextFree (used_dst_channels d b)

/-- The length of block `b`'s `connections` list: every connection is
appended once to its source block's list and once to its target block's
list, so the list holds the connections with `src = b` plus those with
`dst = b` (a self-loop, creatable only by the load path, is counted
twice, exactly as the double `append` of `FIFOConnection.__init__` does). -/
def connCountIn (conns : List FIFOConnection) (b : Nat) : Nat :=
  (conns.filter (fun c => c.src = b)).length + (conns.filter (fun c => c.dst = b)).length

/-- `len(block.connections)` for block `b` of diagram `d`. -/
def connectionCount (d : Diagram) (b : Nat) : Nat :=
  connCountIn d.conns b

/-- `Block.can_add_connection`: `len(self.connections) < 15`. -/
def can_add_connection (d : Diagram) (b : Nat) : Prop :=
  connectionCount d b < 15

instance (d : Diagram) (b : Nat) : Decidable (can_add_connection d b) := by
  unfold can_add_connection; infer_instance

/-- `Block.get_connection_point(other_block, connection_index, total_connections)`:
the attachment point on the boundary of `self` for a connection to
`other_block`.  The side is chosen by the `if/elif` chain on
`other_block.x` and `other_block.y`; for multiple connections the point
is then offset along the chosen side (`0.6` is written `3/5`). -/
def get_connection_point (self other : Block) (connection_index total_connections : Nat) :
    ℚ × ℚ :=
  let p : ℚ × ℚ :=
    if other.x < self.x then (self.x, self.y + self.height / 2)
    else if self.x + self.width < other.x then (self.x + self.width, self.y + self.height / 2)
    else if other.y < self.y then (self.x + self.width / 2, self.y)
    else (self.x + self.width / 2, self.y + self.height)
  if 1 < total_connections then
    if other.x < self.x ∨ self.x + self.width < other.x then
      let offset_range := min (self.height * (3/5)) ((total_connections : ℚ) * 10)
      let step := if 1 < total_connections then offset_range / ((total_connections : ℚ) - 1) else 0
      let offset := -offset_range / 2 + (connection_index : ℚ) * step
      (p.1, p.2 + offset)
    else
      let offset_range := min (self.width * (3/5)) ((total_connections : ℚ) * 10)
      let step := if 1 < total_connections then offset_range / ((total_connections : ℚ) - 1) else 0
      let offset := -offset_range / 2 + (connection_index : ℚ) * step
      (p.1 + offset, p.2)
  else p

/-- One evaluation of the quadratic Bezier formula of `FIFOConnection.draw`:
`P = (1-t)^2 P0 + 2 (1-t) t P1 + t^2 P2`. -/
def quadBezierPoint (p0 p1 p2 : ℚ × ℚ) (t : ℚ) : ℚ × ℚ :=
  ((1 - t)^2 * p0.1 + 2 * (1 - t) * t * p1.1 + t^2 * p2.1,
   (1 - t)^2 * p0.2 + 2 * (1 - t) * t * p1.2 + t^2 * p2.2)

/-- The curve control point computed by `FIFOConnection.draw` for the
connection at position `index`: the anchor-segment midpoint, offset by
`30 + index * 15` perpendicular to the dominant direction, with the sign
alternating by `index % 2`. -/
def drawControlPoint (s e : ℚ × ℚ) (index : Nat) : ℚ × ℚ :=
  let mid_x := (s.1 + e.1) / 2
  let mid_y := (s.2 + e.2) / 2
  let curve_offset : ℚ := 30 + (index : ℚ) * 15
  let dx := e.1 - s.1
  let dy := e.2 - s.2
  if |dy| < |dx| then
    (mid_x, mid_y + (if index % 2 = 1 then curve_offset else -curve_offset))
  else
    (mid_x + (if index % 2 = 1 then curve_offset else -curve_offset), mid_y)

/-- The polyline stored into `curve_points` by `FIFOConnection.draw`, as a
list of points, for a connection with anchor points `s`, `e` at position
`index` out of `total` connections between the block pair: a straight
2-point segment, or for `total > 1 and index > 0` the 21 samples
(`t = i/20`) of the quadratic Bezier through the offset control point. -/
def drawPath (s e : ℚ × ℚ) (index total : Nat) : List (ℚ × ℚ) :=
  if 1 < total ∧ 0 < index then
    (List.range 21).map (fun i => quadBezierPoint s (drawControlPoint s e index) e ((i : ℚ) / 20))
  else [s, e]

/-- Python `str.strip()` on the characters the source's entry fields can
contain, as a structural function on the character list. -/
def pyStrip (s : String) : String :=
  ⟨((s.data.dropWhile (fun c => c.isWhitespace)).reverse.dropWhile
      (fun c => c.isWhitespace)).reverse⟩

/-- The connections of `d` between the unordered block pair `{s, t}`
(either direction), in diagram-list order: the `connections_between`
scan of `FIFOConnection.draw` and the `existing_connections` count of
`create_connection_between_blocks`. -/
def pairConnections (d : Diagram) (s t : Nat) : List FIFOConnection :=
  d.conns.filter (fun c => (c.src = s ∧ c.dst = t) ∨ (c.src = t ∧ c.dst = s))

/-- The new-block position computed by `add_block`: `(100, 100)` for the
first block, otherwise to the right of the rightmost block, wrapping to
a new row when past `x = 800`. -/
def addBlockPos (blocks : List Block) : ℚ × ℚ :=
  match blocks with
  | [] => (100, 100)
  | b :: bs =>
    let max_x := (bs.map (fun k => k.x + k.width)).foldl max (b.x + b.width)
    let x := max_x + 50
    if 800 < x then
      (100, (bs.map (fun k => k.y + k.height)).foldl max (b.y + b.height) + 50)
    else (x, 100)

/-- `add_block`: append a block with the computed position, default size
`150 x 80` and no number. -/
def add_block (d : Diagram) (name : String) : Diagram :=
  let p := addBlockPos d.blocks
  { d with blocks := d.blocks ++
      [{ x := p.1, y := p.2, width := 150, height := 80, name := name, number := none }] }

/-- `Block.resize`: clamp to the minimum size `50 x 30`. -/
def resizeBlockAt (d : Diagram) (i : Nat) (w h : ℚ) : Diagram :=
  match d.blocks[i]? with
  | none => d
  | some b =>
    let b2 := { b with width := max 50 w, height := max 30 h }
    { d with blocks := d.blocks.set i b2 }

/-- Dragging a block (`on_canvas_drag`): the new position is clamped to
`[0, 1800]` in both coordinates. -/
def moveBlockTo (d : Diagram) (i : Nat) (x y : ℚ) : Diagram :=
  match d.blocks[i]? with
  | none => d
  | some b =>
    let b2 := { b with x := max 0 (min x 1800), y := max 0 (min y 1800) }
    { d with blocks := d.blocks.set i b2 }

/-- `edit_block_properties.apply_changes`: reject an empty (stripped)
name, a non-positive number, or non-positive dimensions, leaving the
diagram unchanged; otherwise set name and number and resize. -/
def edit_block_properties (d : Diagram) (i : Nat) (name : String) (number : Option Int)
    (w h : Int) : Diagram :=
  match d.blocks[i]? with
  | none => d
  | some b =>
    if pyStrip name = "" then d
    else if (match number with | some n => decide (n ≤ 0) | none => false) = true then d
    else if w ≤ 0 ∨ h ≤ 0 then d
    else
      let b2 := { b with name := pyStrip name, number := number, width := max 50 (w : ℚ), height := max 30 (h : ℚ) }
      { d with blocks := d.blocks.set i b2 }

/-- `create_connection_between_blocks`: refuse a self-connection or an
endpoint at capacity (returning the diagram unchanged and `false`);
otherwise append a connection named from the count of existing
connections between the pair, with auto-assigned channels and default
depth 16 and width 32, and return `true`. -/
def create_connection_between_blocks (d : Diagram) (s t : Nat) : Diagram × Bool :=
  if s ≠ t ∧ can_add_connection d s ∧ can_add_connection d t then
    let existing := (pairConnections d s t).length
    let fifo_name := if 0 < existing then "FIFO_" ++ toString (existing + 1) else "FIFO"
    let c : FIFOConnection :=
      { name := fifo_name, src := s, dst := t,
        src_ch_num := get_next_available_src_channel d s,
        dst_ch_num := get_next_available_dst_channel d t,
        depth := 16, width := 32 }
    ({ d with conns := d.conns ++ [c] }, true)
  else (d, false)

/-- `delete_connection`: remove the connection at position `i` of the
diagram's connection list (and of both endpoints' lists, which are
derived here). -/
def delete_connection (d : Diagram) (i : Nat) : Diagram :=
  { d with conns := d.conns.eraseIdx i }

/-- `edit_connection_properties_direct.apply_changes`: reject an empty
stripped name, non-positive depth or width, or a negative channel
number, leaving the diagram unchanged; otherwise overwrite the
connection's name, depth, width and both channel numbers verbatim. -/
def edit_connection_properties (d : Diagram) (i : Nat) (name : String)
    (depth width src_ch dst_ch : Int) : Diagram :=
  match d.conns[i]? with
  | none => d
  | some c =>
    if pyStrip name = "" then d
    else if depth ≤ 0 ∨ width ≤ 0 then d
    else if src_ch < 0 ∨ dst_ch < 0 then d
    else
      let c2 := { c with name := pyStrip name, depth := depth, width := width, src_ch_num := src_ch, dst_ch_num := dst_ch }
      { d with conns := d.conns.set i c2 }

/-- The loop of `show_connection_info.reassign_all_channels`: every
connection has first been detached from its endpoints' lists, then each
connection in diagram-list order receives the lowest source channel
unused among the already re-attached connections at its source block and
the lowest target channel unused at its target block, and is re-attached
(`done` is the list of re-attached connections). -/
def reassignLoop (done : List FIFOConnection) : List FIFOConnection → List FIFOConnection
  | [] => done
  | c :: rest =>
    let sc := nextFree ((done.filter (fun k => k.src = c.src)).map (fun k => k.src_ch_num))
    let dc := nextFree ((done.filter (fun k => k.dst = c.dst)).map (fun k => k.dst_ch_num))
    reassignLoop (done ++ [{ c with src_ch_num := sc, dst_ch_num := dc }]) rest

/-- `show_connection_info.reassign_all_channels`. -/
def reassign_all_channels (d : Diagram) : Diagram :=
  { d with conns := reassignLoop [] d.conns }

/-- `new_design`: clear all blocks and connections. -/
def new_design (_d : Diagram) : Diagram := emptyDiagram

/-- A legacy nested connection record of the old full-design format,
found under a block record's `connections` key; the channel fields are
read with `.get(..., 0)` and so may be absent. -/
structure OldConnRecord where
  target : String
  name : String
  depth : Int
  width : Int
  src_ch_num : Option Int
  dst_ch_num : Option Int
deriving DecidableEq

/-- A parsed block record of the full-design format
(`{x, y, width, height, name, number}`); `number` is read with `.get` and
may be null, and a legacy-format file may carry nested connection
records under `connections` (read with `.get(..., [])`). -/
structure BlockRecord where
  x : ℚ
  y : ℚ
  width : ℚ
  height : ℚ
  name : String
  number : Option Int
  connections : List OldConnRecord := []
deriving DecidableEq

/-- A parsed `fifo_infos` connection record
(`{name, src, src_ch_num, dst, dst_ch_num, qd, width}`), with every field
present, as the writers always emit them. -/
structure ConnRecord where
  name : String
  src : String
  src_ch_num : Int
  dst : String
  dst_ch_num : Int
  qd : Int
  width : Int
deriving DecidableEq

/-- A record of the legacy top-level `connections` import format of
`import_connections_json`, with every field present. -/
structure LegacyImportRecord where
  source_block : String
  destination_block : String
  fifo_name : String
  queue_depth : Int
  data_width : Int
  source_channel : Int
  destination_channel : Int
deriving DecidableEq

/-- A parsed JSON file, by its recognized top-level keys; a key absent
from the file is `none`.  The `metadata` key is informational only and
not modelled.  The compact one-record-per-line formatting of the writers
is cosmetic and not modelled. -/
structure JsonFile where
  blocks : Option (List BlockRecord) := none
  fifo_infos : Option (List ConnRecord) := none
  connections : Option (List LegacyImportRecord) := none
deriving DecidableEq

/-- The block record written by `save_json` for one block. -/
def blockRecordOf (b : Block) : BlockRecord :=
  { x := b.x, y := b.y, width := b.width, height := b.height,
    name := b.name, number := b.number }

/-- The name of block `i` of diagram `d` (`conn.source_block.name`);
the default covers only indices a Python reference could never hold. -/
def blockNameAt (d : Diagram) (i : Nat) : String :=
  ((d.blocks[i]?).map (fun b => b.name)).getD ""

/-- The `fifo_infos` record written for one connection by `save_json`,
`export_connections_json` and `export_fifo_format`. -/
def connRecordOf (d : Diagram) (c : FIFOConnection) : ConnRecord :=
  { name := c.name, src := blockNameAt d c.src, src_ch_num := c.src_ch_num,
    dst := blockNameAt d c.dst, dst_ch_num := c.dst_ch_num,
    qd := c.depth, width := c.width }

/-- `save_json`: the full-design file, with a block record per block and
a `fifo_infos` record per connection, both in list order. -/
def save_json (d : Diagram) : JsonFile :=
  { blocks := some (d.blocks.map blockRecordOf),
    fifo_infos := some (d.conns.map (connRecordOf d)),
    connections := none }

/-- The `block_map` dictionary built by the load and import paths
(`block_map[name] = block`): name-to-index bindings with the later
binding for a repeated name shadowing the earlier, exactly as Python
dictionary assignment does. -/
def buildBlockMap (blocks : List Block) : List (String × Nat) :=
  (blocks.enum.map (fun p => (p.2.name, p.1))).reverse

/-- Dictionary lookup in a `buildBlockMap` map. -/
def lookupName (m : List (String × Nat)) (s : String) : Option Nat :=
  (m.find? (fun p => p.1 = s)).map (fun p => p.2)

/-- The block built by `load_json` from one block record. -/
def blockOfRecord (r : BlockRecord) : Block :=
  { x := r.x, y := r.y, width := r.width, height := r.height,
    name := r.name, number := r.number }

/-- One iteration of the `fifo_infos` loop of `load_json`: the record is
skipped unless both endpoint names resolve in `block_map`; the saved
channel numbers are preserved verbatim. -/
def loadConn (lk : String → Option Nat) (r : ConnRecord) : Option FIFOConnection :=
  match lk r.src, lk r.dst with
  | some s, some t =>
    some { name := r.name, src := s, dst := t, src_ch_num := r.src_ch_num,
           dst_ch_num := r.dst_ch_num, depth := r.qd, width := r.width }
  | _, _ => none

/-- The legacy branch of `load_json`: connections nested inside each
block record, the block itself being the source; a missing target name
skips the record, and absent channel fields default to 0. -/
def loadOldConns (lk : String → Option Nat) (brecs : List BlockRecord) :
    List FIFOConnection :=
  brecs.flatMap (fun br =>
    match lk br.name with
    | none => []
    | some s =>
      br.connections.filterMap (fun oc =>
        (lk oc.target).map (fun t =>
          { name := oc.name, src := s, dst := t,
            src_ch_num := oc.src_ch_num.getD 0, dst_ch_num := oc.dst_ch_num.getD 0,
            depth := oc.depth, width := oc.width })))

/-- `load_json` on an already parsed file.  The source first calls
`new_design()` (clearing the diagram) and only then checks for the
`blocks` key, so a file without it leaves the cleared state behind; with
it, blocks are rebuilt in record order and connections come from
`fifo_infos` when present, else from the legacy nested records.  No
capacity check is performed. -/
def load_json (_d : Diagram) (f : JsonFile) : Diagram :=
  match f.blocks with
  | none => emptyDiagram
  | some brecs =>
    let blocks := brecs.map blockOfRecord
    let lk := lookupName (buildBlockMap blocks)
    match f.fifo_infos with
    | some frecs => { blocks := blocks, conns := frecs.filterMap (loadConn lk) }
    | none => { blocks := blocks, conns := loadOldConns lk brecs }

/-- The per-record loop shared by `import_connections_json` and
`import_fifo_format`: skip a record whose source or destination name
does not resolve or whose source or destination block is at the
15-connection capacity; otherwise append a connection with the record's
fields and channel numbers preserved verbatim. -/
def importLoop (lk : String → Option Nat) (acc : List FIFOConnection) :
    List ConnRecord → List FIFOConnection
  | [] => acc
  | r :: rest =>
    match lk r.src, lk r.dst with
    | some s, some t =>
      if connCountIn acc s < 15 ∧ connCountIn acc t < 15 then
        importLoop lk (acc ++
          [{ name := r.name, src := s, dst := t, src_ch_num := r.src_ch_num,
             dst_ch_num := r.dst_ch_num, depth := r.qd, width := r.width }]) rest
      else importLoop lk acc rest
    | _, _ => importLoop lk acc rest

/-- A legacy top-level `connections` record carries the same data as a
`fifo_infos` record under different field names. -/
def recordOfLegacy (r : LegacyImportRecord) : ConnRecord :=
  { name := r.fifo_name, src := r.source_block, src_ch_num := r.source_channel,
    dst := r.destination_block, dst_ch_num := r.destination_channel,
    qd := r.queue_depth, width := r.data_width }

/-- `import_connections_json` on a parsed file: recognize `fifo_infos`,
else the legacy `connections` key, else abort with no mutation; then run
the per-record import loop against the existing blocks, appending to the
existing connection list. -/
def connections_json_import (d : Diagram) (f : JsonFile) : Diagram :=
  let lk := lookupName (buildBlockMap d.blocks)
  match f.fifo_infos with
  | some recs => { d with conns := importLoop lk d.conns recs }
  | none =>
    match f.connections with
    | some lrecs => { d with conns := importLoop lk d.conns (lrecs.map recordOfLegacy) }
    | none => d

/-- Python string comparison (`<=`) on character lists: lexicographic by
code point, written structurally so that it evaluates. -/
def charListLe : List Char → List Char → Bool
  | [], _ => true
  | _ :: _, [] => false
  | a :: as, b :: bs =>
    if a.toNat < b.toNat then true
    else if b.toNat < a.toNat then false
    else charListLe as bs

/-- Python `<=` on strings. -/
def strLe (a b : String) : Bool := charListLe a.data b.data

/-- Insertion into a sorted list, for modelling Python `sorted`. -/
def insertSorted (s : String) : List String → List String
  | [] => [s]
  | t :: ts => if strLe s t then s :: t :: ts else t :: insertSorted s ts

/-- Python `sorted` on strings: ascending by code-point order. -/
def pySort : List String → List String
  | [] => []
  | s :: ss => insertSorted s (pySort ss)

/-- The `sorted(block_names)` list of `import_fifo_format`: the distinct
source and destination names referenced anywhere in the file's
`fifo_infos` records, in ascending order. -/
def fifoBlockNames (recs : List ConnRecord) : List String :=
  pySort ((recs.flatMap (fun r => [r.src, r.dst])).dedup)

/-- `math.ceil(math.sqrt(n))` on a natural number. -/
def pyCeilSqrt (n : Nat) : Nat :=
  if Nat.sqrt n * Nat.sqrt n = n then Nat.sqrt n else Nat.sqrt n + 1

/-- The block created by `import_fifo_format` for the `i`-th sorted name:
grid position with `cols` columns and cell pitch `200 x 150` from offset
`(50, 50)`, default size, and number `i + 1`. -/
def gridBlock (cols : Nat) (i : Nat) (name : String) : Block :=
  { x := ((50 + (i % cols) * 200 : Nat) : ℚ), y := ((50 + (i / cols) * 150 : Nat) : ℚ),
    width := 150, height := 80, name := name, number := some ((i : Int) + 1) }

/-- `import_fifo_format` on a parsed file: a file without the
`fifo_infos` key aborts before any mutation; otherwise the current
design is cleared, one block per distinct referenced name is created in
sorted order on the grid, and the records are imported by the shared
per-record loop into the fresh diagram. -/
def fifo_format_import (d : Diagram) (f : JsonFile) : Diagram :=
  match f.fifo_infos with
  | none => d
  | some recs =>
    let names := fifoBlockNames recs
    let cols := pyCeilSqrt names.length
    let blocks := names.enum.map (fun p => gridBlock cols p.1 p.2)
    { blocks := blocks, conns := importLoop (lookupName (buildBlockMap blocks)) [] recs }

/-- The diagram states reachable by the operations of the tool, starting
from the empty diagram of a fresh session.  `allowEdit` gates the manual
connection-property edit, `allowFile` gates the three file read
operations; `Reach true true` is full reachability. -/
inductive Reach (allowEdit allowFile : Bool) : Diagram → Prop where
  | init : Reach allowEdit allowFile emptyDiagram
  | clear {d : Diagram} : Reach allowEdit allowFile d →
      Reach allowEdit allowFile (new_design d)
  | add {d : Diagram} (name : String) : Reach allowEdit allowFile d →
      Reach allowEdit allowFile (add_block d name)
  | move {d : Diagram} (i : Nat) (x y : ℚ) (hi : i < d.blocks.length) :
      Reach allowEdit allowFile d → Reach allowEdit allowFile (moveBlockTo d i x y)
  | resize {d : Diagram} (i : Nat) (w h : ℚ) (hi : i < d.blocks.length) :
      Reach allowEdit allowFile d → Reach allowEdit allowFile (resizeBlockAt d i w h)
  | editBlock {d : Diagram} (i : Nat) (name : String) (number : Option Int) (w h : Int)
      (hi : i < d.blocks.length) : Reach allowEdit allowFile d →
      Reach allowEdit allowFile (edit_block_properties d i name number w h)
  | create {d : Diagram} (s t : Nat) (hs : s < d.blocks.length) (ht : t < d.blocks.length) :
      Reach allowEdit allowFile d →
      Reach allowEdit allowFile (create_connection_between_blocks d s t).1
  | del {d : Diagram} (i : Nat) (hi : i < d.conns.length) : Reach allowEdit allowFile d →
      Reach allowEdit allowFile (delete_connection d i)
  | reassign {d : Diagram} : Reach allowEdit allowFile d →
      Reach allowEdit allowFile (reassign_all_channels d)
  | editConn {d : Diagram} (i : Nat) (name : String) (depth width src_ch dst_ch : Int)
      (hi : i < d.conns.length) (hflag : allowEdit = true) : Reach allowEdit allowFile d →
      Reach allowEdit allowFile (edit_connection_properties d i name depth width src_ch dst_ch)
  | load {d : Diagram} (f : JsonFile) (hflag : allowFile = true) :
      Reach allowEdit allowFile d → Reach allowEdit allowFile (load_json d f)
  | importConns {d : Diagram} (f : JsonFile) (hflag : allowFile = true) :
      Reach allowEdit allowFile d → Reach allowEdit allowFile (connections_json_import d f)
  | importFifo {d : Diagram} (f : JsonFile) (hflag : allowFile = true) :
      Reach allowEdit allowFile d → Reach allowEdit allowFile (fifo_format_import d f)

/-! ### The channel scan returns the least unused channel -/

lemma lowestFree_spec (used : List Int) :
    ∀ fuel n, (∃ k, k < fuel ∧ ((n + k : Nat) : Int) ∉ used) →
      ((lowestFree used n fuel : Int) ∉ used) ∧
      ∀ m : Nat, n ≤ m → m < lowestFree used n fuel → (m : Int) ∈ used := by
  intro fuel
  induction fuel with
  | zero =>
    intro n h
    obtain ⟨k, hk, _⟩ := h
    omega
  | succ f ih =>
    intro n h
    by_cases hn : (n : Int) ∈ used
    · have hrec : lowestFree used n (f + 1) = lowestFree used (n + 1) f := by
        simp [lowestFree, hn]
      obtain ⟨k, hk, hku⟩ := h
      have hk0 : k ≠ 0 := by
        intro h0; subst h0; simp at hku; exact hku hn
      obtain ⟨k2, rfl⟩ := Nat.exists_eq_succ_of_ne_zero hk0
      have h2 : ∃ j, j < f ∧ ((n + 1 + j : Nat) : Int) ∉ used := by
        refine ⟨k2, by omega, ?_⟩
        have : n + 1 + k2 = n + (k2 + 1) := by omega
        rw [this]; exact hku
      obtain ⟨hnot, hmin⟩ := ih (n + 1) h2
      rw [hrec]
      refine ⟨hnot, ?_⟩
      intro m hm1 hm2
      rcases Nat.eq_or_lt_of_le hm1 with hEq | hLt
      · rw [← hEq]; exact hn
      · exact hmin m hLt hm2
    · have hrec : lowestFree used n (f + 1) = n := by simp [lowestFree, hn]
      rw [hrec]
      exact ⟨hn, fun m hm1 hm2 => absurd (lt_of_le_of_lt hm1 hm2) (lt_irrefl n)⟩

lemma exists_unused (used : List Int) : ∃ k : Nat, k ≤ used.length ∧ ((k : Int) ∉ used) := by
  by_contra hc
  push_neg at hc
  have hsub : (Finset.range (used.length + 1)).image (fun k : Nat => (k : Int)) ⊆
      used.toFinset := by
    intro x hx
    rw [Finset.mem_image] at hx
    obtain ⟨k, hk, rfl⟩ := hx
    rw [Finset.mem_range] at hk
    exact List.mem_toFinset.mpr (hc k (by omega))
  have h1 : used.length + 1 ≤ used.toFinset.card := by
    have hcard : ((Finset.range (used.length + 1)).image (fun k : Nat => (k : Int))).card =
        used.length + 1 := by
      rw [Finset.card_image_of_injective _ (fun a b hab => by exact_mod_cast hab)]
      simp
    calc used.length + 1 = _ := hcard.symm
      _ ≤ used.toFinset.card := Finset.card_le_card hsub
  have h2 := used.toFinset_card_le
  omega

lemma nextFree_not_mem (used : List Int) : nextFree used ∉ used := by
  obtain ⟨k, hk, hku⟩ := exists_unused used
  exact (lowestFree_spec used (used.length + 1) 0 ⟨k, by omega, by simpa using hku⟩).1

lemma nextFree_min (used : List Int) :
    ∀ m : Int, 0 ≤ m → m < nextFree used → m ∈ used := by
  intro m hm0 hmlt
  obtain ⟨k, hk, hku⟩ := exists_unused used
  have hspec := (lowestFree_spec used (used.length + 1) 0
    ⟨k, by omega, by simpa using hku⟩).2
  have := hspec m.toNat (Nat.zero_le _) (by
    have : (m.toNat : Int) = m := Int.toNat_of_nonneg hm0
    unfold nextFree at hmlt
    exact_mod_cast this ▸ hmlt)
  rwa [Int.toNat_of_nonneg hm0] at this

lemma nextFree_nonneg (used : List Int) : 0 ≤ nextFree used := by
  unfold nextFree
  exact_mod_cast Int.ofNat_nonneg _

/-- C5.  For every diagram and block, `get_next_available_src_channel`
returns the smallest non-negative integer not used as `src_ch_num` by
any connection whose source is that block, and symmetrically
`get_next_available_dst_channel` for `dst_ch_num` among the connections
targeting it; in particular a block with outgoing channels `{0, 1, 3}`
receives channel 2 next. -/
theorem C5_min_excluded_channel (d : Diagram) (b : Nat) :
    (0 ≤ get_next_available_src_channel d b ∧
      get_next_available_src_channel d b ∉ used_src_channels d b ∧
      ∀ m : Int, 0 ≤ m → m < get_next_available_src_channel d b →
        m ∈ used_src_channels d b) ∧
    (0 ≤ get_next_available_dst_channel d b ∧
      get_next_available_dst_channel d b ∉ used_dst_channels d b ∧
      ∀ m : Int, 0 ≤ m → m < get_next_available_dst_channel d b →
        m ∈ used_dst_channels d b) ∧
    nextFree [0, 1, 3] = 2 :=
  ⟨⟨nextFree_nonneg _, nextFree_not_mem _, nextFree_min _⟩,
   ⟨nextFree_nonneg _, nextFree_not_mem _, nextFree_min _⟩,
   by decide⟩

/-! ### Attachment-side choice (C9) -/

/-- C9.  `get_connection_point` attaches on the left edge of `self`
exactly when the other block's `x` is strictly left of `self`, on the
right edge when it is strictly right of `self`'s horizontal extent, and
whenever the other block's `x` lies within `self`'s horizontal extent
the attachment is on the top or bottom edge, decided by the other
block's `y` — never defaulting to the left side. -/
theorem C9_connection_side (self other : Block) (i t : Nat) :
    (other.x < self.x → (get_connection_point self other i t).1 = self.x) ∧
    (¬ other.x < self.x → self.x + self.width < other.x →
      (get_connection_point self other i t).1 = self.x + self.width) ∧
    (self.x ≤ other.x → other.x ≤ self.x + self.width →
      ((other.y < self.y → (get_connection_point self other i t).2 = self.y) ∧
       (¬ other.y < self.y →
         (get_connection_point self other i t).2 = self.y + self.height))) := by
  refine ⟨?_, ?_, ?_⟩
  · intro h1
    by_cases hT : 1 < t <;> simp [get_connection_point, h1, hT]
  · intro h1 h2
    by_cases hT : 1 < t <;> simp [get_connection_point, h1, h2, hT]
  · intro h1 h2
    have hc1 : ¬ other.x < self.x := not_lt.mpr h1
    have hc2 : ¬ self.x + self.width < other.x := not_lt.mpr h2
    constructor
    · intro h3
      by_cases hT : 1 < t <;> simp [get_connection_point, hc1, hc2, h3, hT]
    · intro h3
      by_cases hT : 1 < t <;> simp [get_connection_point, hc1, hc2, h3, hT]

/-- A concrete block for evaluating the claims about attachment sides. -/
def blockS : Block := ⟨100, 100, 150, 80, "S", none⟩

/-- A concrete block horizontally overlapping `blockS` and below it. -/
def blockO : Block := ⟨200, 300, 150, 80, "O", none⟩

/-- Witness for C9 at concrete blocks. -/
theorem C9_connection_side_witness :
    (blockO.x < blockS.x → (get_connection_point blockS blockO 0 1).1 = blockS.x) ∧
    (¬ blockO.x < blockS.x → blockS.x + blockS.width < blockO.x →
      (get_connection_point blockS blockO 0 1).1 = blockS.x + blockS.width) ∧
    (blockS.x ≤ blockO.x → blockO.x ≤ blockS.x + blockS.width →
      ((blockO.y < blockS.y → (get_connection_point blockS blockO 0 1).2 = blockS.y) ∧
       (¬ blockO.y < blockS.y →
         (get_connection_point blockS blockO 0 1).2 = blockS.y + blockS.height))) :=
  C9_connection_side blockS blockO 0 1

/-! ### Multi-edge curve layout (C7) -/

/-- The control point as the spec describes it: the anchor-segment
midpoint offset perpendicular to the dominant axis by `30 + 15 * index`
units, on the positive side when `index` is odd and the negative side
when `index` is even. -/
def specControlPoint (s e : ℚ × ℚ) (index : Nat) : ℚ × ℚ :=
  let m : ℚ × ℚ := ((s.1 + e.1) / 2, (s.2 + e.2) / 2)
  let off : ℚ := (30 + 15 * (index : ℚ)) * (if index % 2 = 1 then 1 else -1)
  if |e.2 - s.2| < |e.1 - s.1| then (m.1, m.2 + off) else (m.1 + off, m.2)

lemma drawControlPoint_eq_spec (s e : ℚ × ℚ) (index : Nat) :
    drawControlPoint s e index = specControlPoint s e index := by
  unfold drawControlPoint specControlPoint
  by_cases hd : |e.2 - s.2| < |e.1 - s.1| <;>
    by_cases hp : index % 2 = 1 <;>
      simp [hd, hp] <;> ring

/-- C7.  Among the connections of an unordered block pair, the one at
index 0 (or the sole one when the total is 1) is drawn as the 2-point
straight segment of its anchor points, while a connection at index at
least 1 is drawn as the 21 samples at `t = i/20` of the quadratic Bezier
whose control point is the anchor midpoint offset perpendicular to the
dominant axis by `30 + 15 * index`, to the positive side for odd index
and the negative side for even index; the offsets of the control points
at indices 1 and 2 point to strictly opposite sides of the straight
segment (their scalar product is `45 * (-60) = -2700 < 0`). -/
theorem C7_curve_layout (s e : ℚ × ℚ) (index total : Nat) (h : index < total) :
    ((index = 0 ∨ total = 1) → drawPath s e index total = [s, e]) ∧
    (1 ≤ index → drawPath s e index total =
      (List.range 21).map
        (fun i => quadBezierPoint s (specControlPoint s e index) e ((i : ℚ) / 20))) ∧
    (((specControlPoint s e 1).1 - (s.1 + e.1) / 2) *
        ((specControlPoint s e 2).1 - (s.1 + e.1) / 2) +
      ((specControlPoint s e 1).2 - (s.2 + e.2) / 2) *
        ((specControlPoint s e 2).2 - (s.2 + e.2) / 2) = -2700) := by
  refine ⟨?_, ?_, ?_⟩
  · intro hz
    have hcond : ¬ (1 < total ∧ 0 < index) := by omega
    simp [drawPath, hcond]
  · intro hge
    have hcond : 1 < total ∧ 0 < index := ⟨by omega, by omega⟩
    simp only [drawPath, if_pos hcond, drawControlPoint_eq_spec]
  · by_cases hd : |e.2 - s.2| < |e.1 - s.1| <;> simp [specControlPoint, hd] <;> ring

/-- Witness for C7 at a concrete anchor pair with `index = 1`,
`total = 3`. -/
theorem C7_curve_layout_witness :
    (((1 : Nat) = 0 ∨ (3 : Nat) = 1) →
      drawPath (0, 0) (100, 0) 1 3 = [(0, 0), (100, 0)]) ∧
    (1 ≤ 1 → drawPath ((0 : ℚ), (0 : ℚ)) (100, 0) 1 3 =
      (List.range 21).map
        (fun i => quadBezierPoint (0, 0) (specControlPoint (0, 0) (100, 0) 1) (100, 0)
          ((i : ℚ) / 20))) ∧
    (((specControlPoint ((0 : ℚ), (0 : ℚ)) (100, 0) 1).1 - ((0 : ℚ) + 100) / 2) *
        ((specControlPoint ((0 : ℚ), (0 : ℚ)) (100, 0) 2).1 - ((0 : ℚ) + 100) / 2) +
      ((specControlPoint ((0 : ℚ), (0 : ℚ)) (100, 0) 1).2 - ((0 : ℚ) + 0) / 2) *
        ((specControlPoint ((0 : ℚ), (0 : ℚ)) (100, 0) 2).2 - ((0 : ℚ) + 0) / 2) = -2700) :=
  C7_curve_layout (0, 0) (100, 0) 1 3 (by omega)

/-! ### Dictionary lookup and the save/load round trip (C1) -/

lemma lookupName_eq_of_mem :
    ∀ {m : List (String × Nat)}, ((m.map Prod.fst).Nodup) →
      ∀ {k : String} {v : Nat}, (k, v) ∈ m → lookupName m k = some v := by
  intro m
  induction m with
  | nil => intro _ k v h; simp at h
  | cons p rest ih =>
    intro hnd k v hmem
    rw [List.map_cons, List.nodup_cons] at hnd
    rcases List.mem_cons.mp hmem with hEq | hTail
    · rw [← hEq]
      simp [lookupName, List.find?_cons_of_pos]
    · by_cases hk : p.1 = k
      · exfalso
        exact hnd.1 (hk ▸ (List.mem_map.mpr ⟨(k, v), hTail, rfl⟩))
      · have hrest := ih hnd.2 hTail
        simp only [lookupName] at hrest ⊢
        rw [List.find?_cons_of_neg _ (by simpa using hk)]
        exact hrest

lemma enum_map_name (bs : List Block) :
    bs.enum.map (fun p => p.2.name) = bs.map (fun b => b.name) := by
  rw [show (fun p : Nat × Block => p.2.name) = ((fun b : Block => b.name) ∘ Prod.snd)
      from rfl, ← List.map_map, List.enum_map_snd]

lemma buildBlockMap_keys_nodup {bs : List Block}
    (hnames : (bs.map (fun b => b.name)).Nodup) :
    ((buildBlockMap bs).map Prod.fst).Nodup := by
  unfold buildBlockMap
  rw [List.map_reverse, List.nodup_reverse, List.map_map]
  rw [show (Prod.fst ∘ fun p : Nat × Block => (p.2.name, p.1)) =
      (fun p : Nat × Block => p.2.name) from rfl]
  rw [enum_map_name]
  exact hnames

lemma lookup_blockNameAt (d : Diagram)
    (hnames : (d.blocks.map (fun b => b.name)).Nodup)
    {j : Nat} (hj : j < d.blocks.length) :
    lookupName (buildBlockMap d.blocks) (blockNameAt d j) = some j := by
  have hmem : (blockNameAt d j, j) ∈ buildBlockMap d.blocks := by
    unfold buildBlockMap
    rw [List.mem_reverse, List.mem_map]
    refine ⟨(j, d.blocks.get ⟨j, hj⟩), ?_, ?_⟩
    · rw [List.mem_enum_iff_getElem?]
      simp [List.getElem?_eq_getElem hj]
    · simp [blockNameAt, List.getElem?_eq_getElem hj]
  exact lookupName_eq_of_mem (buildBlockMap_keys_nodup hnames) hmem

lemma map_blockOfRecordOf : ∀ bs : List Block, (bs.map blockRecordOf).map blockOfRecord = bs
  | [] => rfl
  | b :: t => by rw [List.map_cons, List.map_cons, map_blockOfRecordOf t]; rfl

lemma filterMap_eq_self {α : Type} (f : α → Option α) :
    ∀ l : List α, (∀ c ∈ l, f c = some c) → l.filterMap f = l := by
  intro l
  induction l with
  | nil => intro _; rfl
  | cons a t ih =>
    intro h
    rw [List.filterMap_cons, h a (List.mem_cons_self a t)]
    rw [ih (fun c hc => h c (List.mem_cons_of_mem a hc))]

lemma load_json_save_json (d : Diagram)
    (hnames : (d.blocks.map (fun b => b.name)).Nodup)
    (hwf : ∀ c ∈ d.conns, c.src < d.blocks.length ∧ c.dst < d.blocks.length) :
    load_json d (save_json d) = d := by
  have hb := map_blockOfRecordOf d.blocks
  simp only [load_json, save_json, hb]
  have hc : (d.conns.map (connRecordOf d)).filterMap
      (loadConn (lookupName (buildBlockMap d.blocks))) = d.conns := by
    rw [List.filterMap_map]
    apply filterMap_eq_self
    intro c hcm
    obtain ⟨hs, ht⟩ := hwf c hcm
    have h1 := lookup_blockNameAt d hnames hs
    have h2 := lookup_blockNameAt d hnames ht
    simp [Function.comp, loadConn, connRecordOf, h1, h2]
  rw [hc]

/-- C1.  For a diagram whose block names are pairwise distinct, saving
the full design and loading the written file yields a diagram whose
multiset of block records (name, position, size, number) and multiset of
connection records (name, source name, target name, channels, depth,
width) equal those of the original. -/
theorem C1_save_load_round_trip (d : Diagram)
    (hnames : (d.blocks.map (fun b => b.name)).Nodup)
    (hwf : ∀ c ∈ d.conns, c.src < d.blocks.length ∧ c.dst < d.blocks.length) :
    (((load_json d (save_json d)).blocks.map blockRecordOf : Multiset BlockRecord) =
      (d.blocks.map blockRecordOf : Multiset BlockRecord)) ∧
    (((load_json d (save_json d)).conns.map
        (connRecordOf (load_json d (save_json d))) : Multiset ConnRecord) =
      (d.conns.map (connRecordOf d) : Multiset ConnRecord)) := by
  rw [load_json_save_json d hnames hwf]
  exact ⟨rfl, rfl⟩

/-- A concrete two-block, one-connection diagram for the round-trip
witness. -/
def diagramAB : Diagram :=
  ⟨[⟨100, 100, 150, 80, "A", none⟩, ⟨300, 100, 150, 80, "B", some 2⟩],
   [⟨"FIFO", 0, 1, 0, 0, 16, 32⟩]⟩

/-- Witness for C1 on `diagramAB`. -/
theorem C1_save_load_round_trip_witness :
    (((load_json diagramAB (save_json diagramAB)).blocks.map blockRecordOf :
        Multiset BlockRecord) =
      (diagramAB.blocks.map blockRecordOf : Multiset BlockRecord)) ∧
    (((load_json diagramAB (save_json diagramAB)).conns.map
        (connRecordOf (load_json diagramAB (save_json diagramAB))) : Multiset ConnRecord) =
      (diagramAB.conns.map (connRecordOf diagramAB) : Multiset ConnRecord)) :=
  C1_save_load_round_trip diagramAB (by decide) (by decide)

/-! ### Format errors and mutation (C4) -/

/-- The parsed form of a JSON file that parses but contains none of the
recognized top-level keys. -/
def keylessFile : JsonFile := {}

/-- C4, evaluated at the failing input.  On a file with none of the
recognized top-level keys, both import operations abort before any
mutation, but `load_json` has already called `new_design()` when it
checks for the `blocks` key: the pre-existing design (here the two
blocks and one connection of `diagramAB`) is destroyed, contradicting
the claim that a format error aborts before any mutation. -/
theorem C4_format_error_mutation :
    (load_json diagramAB keylessFile).blocks = [] ∧
    (load_json diagramAB keylessFile).conns = [] ∧
    diagramAB.blocks ≠ [] ∧ diagramAB.conns ≠ [] ∧
    connections_json_import diagramAB keylessFile = diagramAB ∧
    fifo_format_import diagramAB keylessFile = diagramAB :=
  ⟨rfl, rfl, List.cons_ne_nil _ _, List.cons_ne_nil _ _, rfl, rfl⟩

/-! ### Channel reassignment is the from-scratch assignment (C8) -/

/-- Modelled from the spec: the channel pairs produced by creating the
connections from scratch in their current list order, depending only on
the sequence of (source, target) endpoint pairs — each connection
receives the lowest channel not used by an earlier-listed connection at
the same block in the same role.  `srcDone` and `dstDone` hold, per
role, the endpoint block of each earlier connection together with its
assigned channel. -/
def scratchChannels (srcDone dstDone : List (Nat × Int)) :
    List (Nat × Nat) → List (Int × Int)
  | [] => []
  | e :: rest =>
    let sc := nextFree ((srcDone.filter (fun p => p.1 = e.1)).map (fun p => p.2))
    let dc := nextFree ((dstDone.filter (fun p => p.1 = e.2)).map (fun p => p.2))
    (sc, dc) :: scratchChannels (srcDone ++ [(e.1, sc)]) (dstDone ++ [(e.2, dc)]) rest

lemma proj_filter_src (done : List FIFOConnection) (b : Nat) :
    ((done.map (fun k => (k.src, k.src_ch_num))).filter (fun p => p.1 = b)).map
        (fun p => p.2) =
      (done.filter (fun k => k.src = b)).map (fun k => k.src_ch_num) := by
  rw [List.filter_map, List.map_map]
  rfl

lemma proj_filter_dst (done : List FIFOConnection) (b : Nat) :
    ((done.map (fun k => (k.dst, k.dst_ch_num))).filter (fun p => p.1 = b)).map
        (fun p => p.2) =
      (done.filter (fun k => k.dst = b)).map (fun k => k.dst_ch_num) := by
  rw [List.filter_map, List.map_map]
  rfl

lemma reassignLoop_channels :
    ∀ (rest done : List FIFOConnection),
      (reassignLoop done rest).map (fun c => (c.src_ch_num, c.dst_ch_num)) =
        done.map (fun c => (c.src_ch_num, c.dst_ch_num)) ++
          scratchChannels (done.map (fun c => (c.src, c.src_ch_num)))
            (done.map (fun c => (c.dst, c.dst_ch_num)))
            (rest.map (fun c => (c.src, c.dst))) := by
  intro rest
  induction rest with
  | nil => intro done; simp [reassignLoop, scratchChannels]
  | cons c t ih =>
    intro done
    rw [reassignLoop, ih]
    simp only [List.map_cons, scratchChannels, proj_filter_src, proj_filter_dst,
      List.map_append, List.append_assoc]
    rfl

lemma reassignLoop_fields :
    ∀ (rest done : List FIFOConnection),
      (reassignLoop done rest).map (fun c => (c.name, c.src, c.dst, c.depth, c.width)) =
        (done ++ rest).map (fun c => (c.name, c.src, c.dst, c.depth, c.width)) := by
  intro rest
  induction rest with
  | nil => intro done; simp [reassignLoop]
  | cons c t ih =>
    intro done
    rw [reassignLoop, ih]
    simp [List.map_append]

/-- C8.  `reassign_all_channels` rewrites the channel pairs of the
connections, in diagram-list order, to exactly the from-scratch
assignment determined by the endpoint sequence alone (so the result is
independent of the channel numbers held beforehand), changing no other
connection field and no block; in particular three connections sharing
a source block receive source channels 0, 1, 2 in list order. -/
theorem C8_reassign_all_channels (d : Diagram) :
    ((reassign_all_channels d).conns.map (fun c => (c.src_ch_num, c.dst_ch_num)) =
      scratchChannels [] [] (d.conns.map (fun c => (c.src, c.dst)))) ∧
    ((reassign_all_channels d).conns.map (fun c => (c.name, c.src, c.dst, c.depth, c.width)) =
      d.conns.map (fun c => (c.name, c.src, c.dst, c.depth, c.width))) ∧
    (reassign_all_channels d).blocks = d.blocks ∧
    scratchChannels [] [] [(0, 1), (0, 2), (0, 3)] = [(0, 0), (1, 0), (2, 0)] := by
  refine ⟨?_, ?_, rfl, by decide⟩
  · have h := reassignLoop_channels d.conns []
    simpa [reassign_all_channels] using h
  · have h := reassignLoop_fields d.conns []
    simpa [reassign_all_channels] using h

/-! ### Invariant machinery for the reachability claims (C2, C3) -/

lemma new_design_conns (d : Diagram) : (new_design d).conns = [] := rfl

lemma add_block_conns (d : Diagram) (name : String) : (add_block d name).conns = d.conns := rfl

lemma moveBlockTo_conns (d : Diagram) (i : Nat) (x y : ℚ) :
    (moveBlockTo d i x y).conns = d.conns := by
  unfold moveBlockTo
  split <;> rfl

lemma resizeBlockAt_conns (d : Diagram) (i : Nat) (w h : ℚ) :
    (resizeBlockAt d i w h).conns = d.conns := by
  unfold resizeBlockAt
  split <;> rfl

lemma edit_block_properties_conns (d : Diagram) (i : Nat) (name : String)
    (number : Option Int) (w h : Int) :
    (edit_block_properties d i name number w h).conns = d.conns := by
  unfold edit_block_properties
  split
  · rfl
  · split_ifs <;> rfl

lemma used_src_channels_congr {d1 d2 : Diagram} (h : d2.conns = d1.conns) (b : Nat) :
    used_src_channels d2 b = used_src_channels d1 b := by
  unfold used_src_channels; rw [h]

lemma used_dst_channels_congr {d1 d2 : Diagram} (h : d2.conns = d1.conns) (b : Nat) :
    used_dst_channels d2 b = used_dst_channels d1 b := by
  unfold used_dst_channels; rw [h]

/-- The channel-uniqueness invariant of the spec: among the connections
sharing a source block the source channels are pairwise distinct, and
among the connections sharing a target block the destination channels
are pairwise distinct, the two numberings being independent. -/
def channelsUnique (d : Diagram) : Prop :=
  ∀ b : Nat, (used_src_channels d b).Nodup ∧ (used_dst_channels d b).Nodup

lemma channelsUnique_congr {d1 d2 : Diagram} (h : d2.conns = d1.conns) :
    channelsUnique d1 → channelsUnique d2 := by
  intro hu b
  rw [used_src_channels_congr h, used_dst_channels_congr h]
  exact hu b

lemma channelsUnique_empty : channelsUnique emptyDiagram := by
  intro b; exact ⟨List.nodup_nil, List.nodup_nil⟩

lemma channelsUnique_sublist {d1 d2 : Diagram}
    (h : List.Sublist d2.conns d1.conns) : channelsUnique d1 → channelsUnique d2 := by
  intro hu b
  exact ⟨((h.filter _).map _).nodup (hu b).1, ((h.filter _).map _).nodup (hu b).2⟩

lemma used_src_channels_append (d : Diagram) (c : FIFOConnection) (b : Nat) :
    used_src_channels { d with conns := d.conns ++ [c] } b =
      used_src_channels d b ++ (if c.src = b then [c.src_ch_num] else []) := by
  unfold used_src_channels
  rw [show ({ d with conns := d.conns ++ [c] } : Diagram).conns = d.conns ++ [c] from rfl]
  rw [List.filter_append, List.map_append]
  by_cases hb : c.src = b <;> simp [hb]

lemma used_dst_channels_append (d : Diagram) (c : FIFOConnection) (b : Nat) :
    used_dst_channels { d with conns := d.conns ++ [c] } b =
      used_dst_channels d b ++ (if c.dst = b then [c.dst_ch_num] else []) := by
  unfold used_dst_channels
  rw [show ({ d with conns := d.conns ++ [c] } : Diagram).conns = d.conns ++ [c] from rfl]
  rw [List.filter_append, List.map_append]
  by_cases hb : c.dst = b <;> simp [hb]

lemma channelsUnique_append {d : Diagram} {c : FIFOConnection}
    (hs : c.src_ch_num ∉ used_src_channels d c.src)
    (ht : c.dst_ch_num ∉ used_dst_channels d c.dst) :
    channelsUnique d → channelsUnique { d with conns := d.conns ++ [c] } := by
  intro hu b
  rw [used_src_channels_append, used_dst_channels_append]
  constructor
  · by_cases hb : c.src = b
    · subst hb
      simp only [if_pos rfl, List.nodup_append]
      refine ⟨(hu c.src).1, List.nodup_singleton _, ?_⟩
      intro a ha hmem
      simp only [if_true, List.mem_singleton] at hmem
      exact hs (hmem ▸ ha)
    · simp [hb, (hu b).1]
  · by_cases hb : c.dst = b
    · subst hb
      simp only [if_pos rfl, List.nodup_append]
      refine ⟨(hu c.dst).2, List.nodup_singleton _, ?_⟩
      intro a ha hmem
      simp only [if_true, List.mem_singleton] at hmem
      exact ht (hmem ▸ ha)
    · simp [hb, (hu b).2]

lemma create_channelsUnique (d : Diagram) (s t : Nat) (hu : channelsUnique d) :
    channelsUnique (create_connection_between_blocks d s t).1 := by
  unfold create_connection_between_blocks
  split_ifs with hcond
  · exact channelsUnique_append (nextFree_not_mem _) (nextFree_not_mem _) hu
  · exact hu

lemma reassignLoop_unique :
    ∀ (rest done : List FIFOConnection),
      channelsUnique ⟨[], done⟩ → channelsUnique ⟨[], reassignLoop done rest⟩ := by
  intro rest
  induction rest with
  | nil => intro done h; exact h
  | cons c t ih =>
    intro done h
    rw [reassignLoop]
    apply ih
    exact channelsUnique_append (nextFree_not_mem _) (nextFree_not_mem _) h

lemma reassign_channelsUnique (d : Diagram) :
    channelsUnique (reassign_all_channels d) := by
  have h := reassignLoop_unique d.conns [] channelsUnique_empty
  exact channelsUnique_congr rfl h

/-! ### The capacity invariant (C3) -/

/-- The spec's capacity invariant: every block holds at most 15
connections, incoming plus outgoing combined. -/
def capRespected (d : Diagram) : Prop := ∀ b : Nat, connectionCount d b ≤ 15

lemma connCountIn_eq_countP (l : List FIFOConnection) (b : Nat) :
    connCountIn l b =
      List.countP (fun q : Nat × Nat => decide (q.1 = b)) (l.map (fun c => (c.src, c.dst))) +
      List.countP (fun q : Nat × Nat => decide (q.2 = b)) (l.map (fun c => (c.src, c.dst))) := by
  unfold connCountIn
  rw [← List.countP_eq_length_filter, ← List.countP_eq_length_filter,
      List.countP_map, List.countP_map]
  rfl

lemma connCountIn_congr {l1 l2 : List FIFOConnection}
    (h : l1.map (fun c => (c.src, c.dst)) = l2.map (fun c => (c.src, c.dst))) (b : Nat) :
    connCountIn l1 b = connCountIn l2 b := by
  rw [connCountIn_eq_countP, connCountIn_eq_countP, h]

lemma capRespected_congr {d1 d2 : Diagram} (h : d2.conns = d1.conns) :
    capRespected d1 → capRespected d2 := by
  intro hc b
  unfold connectionCount
  rw [show connCountIn d2.conns b = connCountIn d1.conns b from by rw [h]]
  exact hc b

lemma capRespected_empty : capRespected emptyDiagram := by
  intro b; unfold connectionCount connCountIn; simp [emptyDiagram]

lemma capRespected_sublist {d1 d2 : Diagram}
    (h : List.Sublist d2.conns d1.conns) : capRespected d1 → capRespected d2 := by
  intro hc b
  have h1 : ((d2.conns.filter (fun c => c.src = b)).length ≤
      (d1.conns.filter (fun c => c.src = b)).length) := (h.filter _).length_le
  have h2 : ((d2.conns.filter (fun c => c.dst = b)).length ≤
      (d1.conns.filter (fun c => c.dst = b)).length) := (h.filter _).length_le
  have := hc b
  unfold connectionCount connCountIn at this ⊢
  omega

lemma connectionCount_append (d : Diagram) (c : FIFOConnection) (b : Nat) :
    connectionCount { d with conns := d.conns ++ [c] } b =
      connectionCount d b + (if c.src = b then 1 else 0) + (if c.dst = b then 1 else 0) := by
  unfold connectionCount connCountIn
  rw [show ({ d with conns := d.conns ++ [c] } : Diagram).conns = d.conns ++ [c] from rfl]
  rw [List.filter_append, List.filter_append, List.length_append, List.length_append]
  by_cases h1 : c.src = b <;> by_cases h2 : c.dst = b <;> simp [h1, h2] <;> omega

lemma capRespected_append {d : Diagram} {c : FIFOConnection}
    (hne : c.src ≠ c.dst)
    (hs : connectionCount d c.src < 15) (ht : connectionCount d c.dst < 15)
    (h : capRespected d) : capRespected { d with conns := d.conns ++ [c] } := by
  intro b
  rw [connectionCount_append]
  by_cases h1 : c.src = b <;> by_cases h2 : c.dst = b
  · exact absurd (h1.trans h2.symm) hne
  · subst h1
    have := h c.src
    simp [h2]
    omega
  · subst h2
    have := h c.dst
    simp [h1]
    omega
  · have := h b
    simp [h1, h2]
    omega

lemma create_capRespected (d : Diagram) (s t : Nat) (h : capRespected d) :
    capRespected (create_connection_between_blocks d s t).1 := by
  unfold create_connection_between_blocks
  split_ifs with hcond
  · exact capRespected_append hcond.1 hcond.2.1 hcond.2.2 h
  · exact h

lemma map_set_self {α β : Type} (f : α → β) :
    ∀ (l : List α) (i : Nat) (a : α), l[i]? = some a →
      ∀ b : α, f b = f a → (l.set i b).map f = l.map f := by
  intro l
  induction l with
  | nil => intro i a h; simp at h
  | cons x t ih =>
    intro i a h b hfb
    cases i with
    | zero =>
      simp only [List.getElem?_cons_zero, Option.some_inj] at h
      subst h
      simp [List.set, hfb]
    | succ j =>
      simp only [List.getElem?_cons_succ] at h
      simp only [List.set, List.map_cons]
      rw [ih j a h b hfb]

lemma edit_conn_srcdst (d : Diagram) (i : Nat) (name : String) (depth width sc dc : Int) :
    (edit_connection_properties d i name depth width sc dc).conns.map
        (fun c => (c.src, c.dst)) = d.conns.map (fun c => (c.src, c.dst)) := by
  unfold edit_connection_properties
  split
  · rfl
  next c heq =>
    split_ifs <;> try rfl
    exact map_set_self _ d.conns i c heq _ rfl

lemma reassign_srcdst (d : Diagram) :
    (reassign_all_channels d).conns.map (fun c => (c.src, c.dst)) =
      d.conns.map (fun c => (c.src, c.dst)) := by
  have h := reassignLoop_fields d.conns []
  rw [List.nil_append] at h
  have h2 := congrArg
    (List.map (fun q : String × Nat × Nat × Int × Int => (q.2.1, q.2.2.1))) h
  rw [List.map_map, List.map_map] at h2
  exact h2

/-! ### The reachability claims (C2, C3) -/

/-- C2, amended.  Channel uniqueness holds in every state reachable by
the in-editor structural operations: block creation and property edits,
connection creation with automatic channel assignment, connection
deletion and channel reassignment (`Reach false false`).  The manual
connection-property edit and the file loads and imports write channel
numbers verbatim and are excluded; the counterexample shows the edit can
break the invariant. -/
theorem C2_channel_uniqueness (d : Diagram) (h : Reach false false d) :
    channelsUnique d := by
  induction h with
  | init => exact channelsUnique_empty
  | clear _ => exact channelsUnique_empty
  | add name _ ih => exact channelsUnique_congr (add_block_conns _ _) ih
  | move i x y hi _ ih => exact channelsUnique_congr (moveBlockTo_conns _ _ _ _) ih
  | resize i w h hi _ ih => exact channelsUnique_congr (resizeBlockAt_conns _ _ _ _) ih
  | editBlock i name number w h hi _ ih =>
    exact channelsUnique_congr (edit_block_properties_conns _ _ _ _ _ _) ih
  | create s t hs ht _ ih => exact create_channelsUnique _ s t ih
  | del i hi _ ih => exact channelsUnique_sublist (List.eraseIdx_sublist _ _) ih
  | reassign _ ih => exact reassign_channelsUnique _
  | editConn i name depth width sc dc hi hflag _ ih => exact absurd hflag Bool.false_ne_true
  | load f hflag _ ih => exact absurd hflag Bool.false_ne_true
  | importConns f hflag _ ih => exact absurd hflag Bool.false_ne_true
  | importFifo f hflag _ ih => exact absurd hflag Bool.false_ne_true

/-- Witness for C2 at the initial state. -/
theorem C2_channel_uniqueness_witness : channelsUnique emptyDiagram :=
  C2_channel_uniqueness emptyDiagram Reach.init

/-- The reachable state obtained by creating two connections between two
blocks and then manually editing the second connection's source channel
to 0, the value already used by the first. -/
def editedState : Diagram :=
  edit_connection_properties
    (create_connection_between_blocks
      (create_connection_between_blocks (add_block (add_block emptyDiagram "A") "B") 0 1).1
      0 1).1
    1 "FIFO_2" 16 32 0 0

/-- Counterexample to C2 as stated: `editedState` is reachable (the
connection property edit is among the claimed operations), yet the two
connections leaving block 0 both carry source channel 0. -/
theorem C2_channel_uniqueness_counterexample :
    Reach true true editedState ∧
    used_src_channels editedState 0 = [0, 0] ∧
    ¬ (used_src_channels editedState 0).Nodup :=
  ⟨Reach.editConn 1 "FIFO_2" 16 32 0 0 (by decide) rfl
      (Reach.create 0 1 (by decide) (by decide)
        (Reach.create 0 1 (by decide) (by decide)
          (Reach.add "B" (Reach.add "A" Reach.init)))),
   by decide, by decide⟩

/-- C3, amended.  The 15-connection capacity invariant holds in every
state reachable without the file loads and imports (`Reach true false`),
and a creation attempt whose endpoints are not two distinct blocks both
below capacity fails, returning the diagram unchanged with `false`.
`load_json` performs no capacity check, so loading can exceed the cap
(see the counterexample). -/
theorem C3_connection_cap (d : Diagram) (hreach : Reach true false d) :
    capRespected d ∧
    (∀ s t : Nat, ¬ (s ≠ t ∧ can_add_connection d s ∧ can_add_connection d t) →
      create_connection_between_blocks d s t = (d, false)) := by
  constructor
  · induction hreach with
    | init => exact capRespected_empty
    | clear _ => exact capRespected_empty
    | add name _ ih => exact capRespected_congr (add_block_conns _ _) ih
    | move i x y hi _ ih => exact capRespected_congr (moveBlockTo_conns _ _ _ _) ih
    | resize i w h hi _ ih => exact capRespected_congr (resizeBlockAt_conns _ _ _ _) ih
    | editBlock i name number w h hi _ ih =>
      exact capRespected_congr (edit_block_properties_conns _ _ _ _ _ _) ih
    | create s t hs ht _ ih => exact create_capRespected _ s t ih
    | del i hi _ ih => exact capRespected_sublist (List.eraseIdx_sublist _ _) ih
    | reassign _ ih =>
      intro b
      unfold connectionCount
      rw [connCountIn_congr (reassign_srcdst _)]
      exact ih b
    | editConn i name depth width sc dc hi hflag _ ih =>
      intro b
      unfold connectionCount
      rw [connCountIn_congr (edit_conn_srcdst _ _ _ _ _ _ _)]
      exact ih b
    | load f hflag _ ih => exact absurd hflag Bool.false_ne_true
    | importConns f hflag _ ih => exact absurd hflag Bool.false_ne_true
    | importFifo f hflag _ ih => exact absurd hflag Bool.false_ne_true
  · intro s t h
    unfold create_connection_between_blocks
    rw [if_neg h]

/-- Witness for C3 at the initial state. -/
theorem C3_connection_cap_witness :
    capRespected emptyDiagram ∧
    (∀ s t : Nat,
      ¬ (s ≠ t ∧ can_add_connection emptyDiagram s ∧ can_add_connection emptyDiagram t) →
      create_connection_between_blocks emptyDiagram s t = (emptyDiagram, false)) :=
  C3_connection_cap emptyDiagram Reach.init

/-- A full-design file whose `fifo_infos` hold 16 copies of the same
connection record between its two blocks. -/
def file16 : JsonFile :=
  { blocks := some [{ x := 0, y := 0, width := 150, height := 80, name := "A", number := none },
                    { x := 300, y := 0, width := 150, height := 80, name := "B", number := none }],
    fifo_infos := some (List.replicate 16 ⟨"F", "A", 0, "B", 0, 16, 32⟩),
    connections := none }

/-- Counterexample to C3 as stated: loading `file16` is a reachable
operation and leaves block 0 holding 16 connections, because `load_json`
performs no capacity check. -/
theorem C3_connection_cap_counterexample :
    Reach true true (load_json emptyDiagram file16) ∧
    connectionCount (load_json emptyDiagram file16) 0 = 16 :=
  ⟨Reach.load file16 rfl Reach.init, by decide⟩

/-! ### Auto-naming of connections (C6) -/

/-- The display name `create_connection_between_blocks` gives the
connection created when `k` connections between the pair precede it:
`"FIFO"` for the first, `"FIFO_{k+1}"` afterwards. -/
def fifoName (k : Nat) : String :=
  if k = 0 then "FIFO" else "FIFO_" ++ toString (k + 1)

lemma fifoName_nodup15 : ((List.range 15).map fifoName).Nodup := by decide

lemma fifoName_not_mem {n : Nat} (hn : n ≤ 14) :
    fifoName n ∉ (List.range n).map fifoName := by
  intro hmem
  obtain ⟨i, hi, hEq⟩ := List.mem_map.mp hmem
  rw [List.mem_range] at hi
  have hinj := List.inj_on_of_nodup_map fifoName_nodup15
  have : i = n := hinj (List.mem_range.mpr (by omega)) (List.mem_range.mpr (by omega)) hEq
  omega

lemma length_filter_le_add (p q1 q2 : FIFOConnection → Bool) :
    ∀ l : List FIFOConnection, (∀ c ∈ l, p c → q1 c ∨ q2 c) →
      (l.filter p).length ≤ (l.filter q1).length + (l.filter q2).length := by
  intro l
  induction l with
  | nil => intro _; simp
  | cons a t ih =>
    intro h
    have ht := ih (fun c hc => h c (List.mem_cons_of_mem _ hc))
    by_cases hp : p a
    · have := h a (List.mem_cons_self a t) hp
      rcases this with h1 | h2
      · simp only [List.filter_cons, hp, h1, if_true]
        by_cases hq2 : q2 a <;> simp [hq2] <;> omega
      · simp only [List.filter_cons, hp, h2, if_true]
        by_cases hq1 : q1 a <;> simp [hq1] <;> omega
    · simp only [List.filter_cons, hp, if_false]
      by_cases hq1 : q1 a <;> by_cases hq2 : q2 a <;> simp [hq1, hq2] <;> omega

lemma pairConnections_le_count (d : Diagram) (s t : Nat) :
    (pairConnections d s t).length ≤ connectionCount d s := by
  unfold pairConnections connectionCount connCountIn
  apply length_filter_le_add
  intro c _ hc
  simp only [decide_eq_true_eq] at hc ⊢
  rcases hc with ⟨h1, _⟩ | ⟨_, h2⟩
  · exact Or.inl h1
  · exact Or.inr h2

/-- C6, amended.  A successful creation between distinct blocks `s`, `t`
appends a connection named `"FIFO"` when no connection exists between
the unordered pair and `"FIFO_{n+1}"` when `n > 0` exist (`n` counting
both directions, so interleaved creations on other pairs are
irrelevant); the first three names are `FIFO`, `FIFO_2`, `FIFO_3`.
Provided the pair's connections still follow the creation naming scheme
(none of them deleted or renamed since), the new name differs from every
existing name of the pair.  The counterexample shows that after a
deletion the new auto-name can collide. -/
theorem C6_fifo_naming (d : Diagram) (s t : Nat)
    (hok : s ≠ t ∧ can_add_connection d s ∧ can_add_connection d t)
    (hscheme : (pairConnections d s t).map (fun c => c.name) =
      (List.range (pairConnections d s t).length).map fifoName) :
    ((create_connection_between_blocks d s t).1.conns.map (fun c => c.name) =
      d.conns.map (fun c => c.name) ++
        [if 0 < (pairConnections d s t).length then
            "FIFO_" ++ toString ((pairConnections d s t).length + 1) else "FIFO"]) ∧
    (if 0 < (pairConnections d s t).length then
        "FIFO_" ++ toString ((pairConnections d s t).length + 1) else "FIFO") =
      fifoName (pairConnections d s t).length ∧
    fifoName (pairConnections d s t).length ∉
      (pairConnections d s t).map (fun c => c.name) ∧
    fifoName 0 = "FIFO" ∧ fifoName 1 = "FIFO_2" ∧ fifoName 2 = "FIFO_3" := by
  refine ⟨?_, ?_, ?_, rfl, by decide, by decide⟩
  · unfold create_connection_between_blocks
    rw [if_pos hok]
    simp
  · unfold fifoName
    by_cases h0 : (pairConnections d s t).length = 0 <;> simp [h0]
  · have hle := pairConnections_le_count d s t
    have hcap : connectionCount d s < 15 := hok.2.1
    rw [hscheme]
    exact fifoName_not_mem (by omega)

/-- A concrete one-pair diagram whose sole connection carries the
auto-assigned name `"FIFO"`. -/
def pairSchemeState : Diagram :=
  ⟨[⟨100, 100, 150, 80, "A", none⟩, ⟨300, 100, 150, 80, "B", none⟩],
   [⟨"FIFO", 0, 1, 0, 0, 16, 32⟩]⟩

/-- Witness for C6 on `pairSchemeState`. -/
theorem C6_fifo_naming_witness :
    ((create_connection_between_blocks pairSchemeState 0 1).1.conns.map
        (fun c => c.name) =
      pairSchemeState.conns.map (fun c => c.name) ++
        [if 0 < (pairConnections pairSchemeState 0 1).length then
            "FIFO_" ++ toString ((pairConnections pairSchemeState 0 1).length + 1)
          else "FIFO"]) ∧
    (if 0 < (pairConnections pairSchemeState 0 1).length then
        "FIFO_" ++ toString ((pairConnections pairSchemeState 0 1).length + 1)
      else "FIFO") = fifoName (pairConnections pairSchemeState 0 1).length ∧
    fifoName (pairConnections pairSchemeState 0 1).length ∉
      (pairConnections pairSchemeState 0 1).map (fun c => c.name) ∧
    fifoName 0 = "FIFO" ∧ fifoName 1 = "FIFO_2" ∧ fifoName 2 = "FIFO_3" :=
  C6_fifo_naming pairSchemeState 0 1 (by refine ⟨by decide, by decide, by decide⟩)
    (by decide)

/-- The reachable state built by creating two connections between blocks
0 and 1, deleting the first, and creating another: the deletion lowers
the pair count, so the new connection is again named `"FIFO_2"`. -/
def collidedState : Diagram :=
  (create_connection_between_blocks
    (delete_connection
      (create_connection_between_blocks
        (create_connection_between_blocks (add_block (add_block emptyDiagram "A") "B") 0 1).1
        0 1).1
      0)
    0 1).1

/-- Counterexample to C6 as stated: in the reachable `collidedState` the
newly created connection's display name `"FIFO_2"` duplicates the name
of an existing connection of the same pair. -/
theorem C6_fifo_naming_counterexample :
    Reach true true collidedState ∧
    (pairConnections collidedState 0 1).map (fun c => c.name) = ["FIFO_2", "FIFO_2"] ∧
    ¬ ((pairConnections collidedState 0 1).map (fun c => c.name)).Nodup :=
  ⟨Reach.create 0 1 (by decide) (by decide)
      (Reach.del 0 (by decide)
        (Reach.create 0 1 (by decide) (by decide)
          (Reach.create 0 1 (by decide) (by decide)
            (Reach.add "B" (Reach.add "A" Reach.init))))),
   by decide, by decide⟩

/-! ### Sorting facts for the FIFO-format import (C10) -/

lemma insertSorted_perm (s : String) : ∀ l : List String, (insertSorted s l).Perm (s :: l) := by
  intro l
  induction l with
  | nil => simp [insertSorted]
  | cons t ts ih =>
    unfold insertSorted
    by_cases h : strLe s t
    · rw [if_pos h]
    · rw [if_neg h]
      exact (ih.cons t).trans (List.Perm.swap s t ts)

lemma pySort_perm : ∀ l : List String, (pySort l).Perm l := by
  intro l
  induction l with
  | nil => simp [pySort]
  | cons s ss ih =>
    unfold pySort
    exact (insertSorted_perm s (pySort ss)).trans (ih.cons s)

lemma charListLe_total : ∀ a b : List Char, charListLe a b = true ∨ charListLe b a = true := by
  intro a
  induction a with
  | nil => intro b; left; rfl
  | cons x xs ih =>
    intro b
    cases b with
    | nil => right; rfl
    | cons y ys =>
      by_cases h1 : x.toNat < y.toNat
      · left; simp [charListLe, h1]
      · by_cases h2 : y.toNat < x.toNat
        · right; simp [charListLe, h2]
        · rcases ih ys with h | h
          · left; simp [charListLe, h1, h2, h]
          · right; simp [charListLe, h1, h2, h]

lemma charListLe_trans : ∀ a b c : List Char,
    charListLe a b = true → charListLe b c = true → charListLe a c = true := by
  intro a
  induction a with
  | nil => intro b c _ _; rfl
  | cons x xs ih =>
    intro b c hab hbc
    cases b with
    | nil => exact absurd hab (by simp [charListLe])
    | cons y ys =>
      cases c with
      | nil => exact absurd hbc (by simp [charListLe])
      | cons z zs =>
        simp only [charListLe] at hab hbc ⊢
        rcases lt_trichotomy x.toNat y.toNat with h1 | h1 | h1
        · rcases lt_trichotomy y.toNat z.toNat with h2 | h2 | h2
          · simp [lt_trans h1 h2]
          · simp [h2 ▸ h1]
          · rw [if_neg (asymm h2), if_pos h2] at hbc
            exact absurd hbc Bool.false_ne_true
        · rcases lt_trichotomy y.toNat z.toNat with h2 | h2 | h2
          · simp [lt_of_le_of_lt (le_of_eq h1) h2]
          · have hxz : x.toNat = z.toNat := h1.trans h2
            rw [if_neg (by rw [hxz]; exact lt_irrefl _),
                if_neg (by rw [hxz]; exact lt_irrefl _)]
            rw [if_neg (by rw [h1]; exact lt_irrefl _),
                if_neg (by rw [h1]; exact lt_irrefl _)] at hab
            rw [if_neg (by rw [h2]; exact lt_irrefl _),
                if_neg (by rw [h2]; exact lt_irrefl _)] at hbc
            exact ih ys zs hab hbc
          · rw [if_neg (asymm h2), if_pos h2] at hbc
            exact absurd hbc Bool.false_ne_true
        · rw [if_neg (asymm h1), if_pos h1] at hab
          exact absurd hab Bool.false_ne_true

lemma strLe_total (a b : String) : strLe a b = true ∨ strLe b a = true :=
  charListLe_total a.data b.data

lemma strLe_trans {a b c : String} (h1 : strLe a b = true) (h2 : strLe b c = true) :
    strLe a c = true :=
  charListLe_trans a.data b.data c.data h1 h2

lemma insertSorted_pairwise (s : String) :
    ∀ l : List String, l.Pairwise (fun a b => strLe a b = true) →
      (insertSorted s l).Pairwise (fun a b => strLe a b = true) := by
  intro l
  induction l with
  | nil => intro _; simp [insertSorted]
  | cons t ts ih =>
    intro h
    rw [List.pairwise_cons] at h
    obtain ⟨ht, hts⟩ := h
    unfold insertSorted
    by_cases hle : strLe s t
    · rw [if_pos hle, List.pairwise_cons]
      refine ⟨?_, List.pairwise_cons.mpr ⟨ht, hts⟩⟩
      intro b hb
      rcases List.mem_cons.mp hb with rfl | hbts
      · exact hle
      · exact strLe_trans hle (ht b hbts)
    · rw [if_neg hle, List.pairwise_cons]
      refine ⟨?_, ih hts⟩
      intro b hb
      have hb2 := (insertSorted_perm s ts).mem_iff.mp hb
      rcases List.mem_cons.mp hb2 with rfl | hbts
      · exact (strLe_total b t).resolve_left (by simpa using hle)
      · exact ht b hbts

lemma pySort_pairwise : ∀ l : List String,
    (pySort l).Pairwise (fun a b => strLe a b = true) := by
  intro l
  induction l with
  | nil => simp [pySort]
  | cons s ss ih => exact insertSorted_pairwise s (pySort ss) ih

lemma fifoBlockNames_nodup (recs : List ConnRecord) : (fifoBlockNames recs).Nodup :=
  ((pySort_perm _).nodup_iff).mpr (List.nodup_dedup _)

lemma fifoBlockNames_mem (recs : List ConnRecord) (s : String) :
    s ∈ fifoBlockNames recs ↔ ∃ r ∈ recs, r.src = s ∨ r.dst = s := by
  unfold fifoBlockNames
  rw [(pySort_perm _).mem_iff, List.mem_dedup, List.mem_flatMap]
  constructor
  · rintro ⟨r, hr, hmem⟩
    rcases List.mem_cons.mp hmem with h | h
    · exact ⟨r, hr, Or.inl h.symm⟩
    · rcases List.mem_cons.mp h with h2 | h2
      · exact ⟨r, hr, Or.inr h2.symm⟩
      · exact absurd h2 (List.not_mem_nil s)
  · rintro ⟨r, hr, h | h⟩
    · exact ⟨r, hr, by simp [h]⟩
    · exact ⟨r, hr, by simp [h]⟩

/-! ### The FIFO-format import rebuilds the diagram from the file alone (C10) -/

lemma lookupName_mem {m : List (String × Nat)} {s : String} {i : Nat}
    (h : lookupName m s = some i) : (s, i) ∈ m := by
  unfold lookupName at h
  cases hf : m.find? (fun p => p.1 = s) with
  | none => rw [hf] at h; exact absurd h (by simp)
  | some p =>
    rw [hf] at h
    have hp : p.1 = s := by simpa using List.find?_some hf
    have hm := List.mem_of_find?_eq_some hf
    have hp2 : p.2 = i := by simpa using h
    have hpe : p = (s, i) := by
      cases p
      simp_all
    rwa [hpe] at hm

lemma buildBlockMap_char {blocks : List Block} {s : String} {i : Nat}
    (h : (s, i) ∈ buildBlockMap blocks) :
    ∃ hb : i < blocks.length, (blocks.get ⟨i, hb⟩).name = s := by
  unfold buildBlockMap at h
  rw [List.mem_reverse, List.mem_map] at h
  obtain ⟨p, hp, hEq⟩ := h
  have h1 : p.2.name = s := congrArg Prod.fst hEq
  have h2 : p.1 = i := congrArg Prod.snd hEq
  rw [List.mem_enum_iff_getElem?] at hp
  rw [h2] at hp
  have hlt : i < blocks.length := by
    by_contra hge
    rw [List.getElem?_eq_none (by omega)] at hp
    exact absurd hp (by simp)
  refine ⟨hlt, ?_⟩
  rw [List.getElem?_eq_getElem hlt] at hp
  have hbp : blocks[i] = p.2 := by simpa using hp
  rw [show blocks.get ⟨i, hlt⟩ = blocks[i] from rfl, hbp]
  exact h1

lemma gridBlocks_names (names : List String) (cols : Nat) :
    ((names.enum.map (fun p => gridBlock cols p.1 p.2)).map (fun b => b.name)) = names := by
  rw [List.map_map]
  rw [show ((fun b : Block => b.name) ∘ fun p : Nat × String => gridBlock cols p.1 p.2) =
      (fun p : Nat × String => p.2) from rfl]
  exact List.enum_map_snd names

/-- Number of times name `s` is referenced by the records, as a source
plus as a destination. -/
def refCount (recs : List ConnRecord) (s : String) : Nat :=
  (recs.filter (fun r => r.src = s)).length + (recs.filter (fun r => r.dst = s)).length

lemma connCountIn_append_list (l : List FIFOConnection) (c : FIFOConnection) (b : Nat) :
    connCountIn (l ++ [c]) b =
      connCountIn l b + (if c.src = b then 1 else 0) + (if c.dst = b then 1 else 0) := by
  unfold connCountIn
  rw [List.filter_append, List.filter_append, List.length_append, List.length_append]
  by_cases h1 : c.src = b <;> by_cases h2 : c.dst = b <;> simp [h1, h2] <;> omega

lemma refCount_cons (r : ConnRecord) (rest : List ConnRecord) (s : String) :
    refCount (r :: rest) s =
      refCount rest s + (if r.src = s then 1 else 0) + (if r.dst = s then 1 else 0) := by
  unfold refCount
  rw [List.filter_cons, List.filter_cons]
  by_cases h1 : r.src = s <;> by_cases h2 : r.dst = s <;> simp [h1, h2] <;> omega

/-- The connection built by the import loop from one record, given the
name resolution `lk`. -/
def connOfRecord (lk : String → Option Nat) (r : ConnRecord) : FIFOConnection :=
  { name := r.name, src := (lk r.src).getD 0, dst := (lk r.dst).getD 0,
    src_ch_num := r.src_ch_num, dst_ch_num := r.dst_ch_num,
    depth := r.qd, width := r.width }

lemma importLoop_complete (lk : String → Option Nat) (nm : Nat → String) (N : Nat)
    (hA : ∀ x i, lk x = some i → i < N ∧ nm i = x)
    (hB : ∀ i, i < N → lk (nm i) = some i) :
    ∀ (recs : List ConnRecord) (acc : List FIFOConnection),
      (∀ r ∈ recs, (lk r.src).isSome ∧ (lk r.dst).isSome) →
      (∀ b, b < N → connCountIn acc b + refCount recs (nm b) ≤ 15) →
      importLoop lk acc recs = acc ++ recs.map (connOfRecord lk) := by
  intro recs
  induction recs with
  | nil => intro acc _ _; simp [importLoop]
  | cons r rest ih =>
    intro acc hres hinv
    obtain ⟨hs1, hd1⟩ := hres r (List.mem_cons_self r rest)
    obtain ⟨s, hsk⟩ := Option.isSome_iff_exists.mp hs1
    obtain ⟨t, htk⟩ := Option.isSome_iff_exists.mp hd1
    obtain ⟨hsN, hsnm⟩ := hA _ _ hsk
    obtain ⟨htN, htnm⟩ := hA _ _ htk
    have hsrc_iff : ∀ b, b < N → ((s = b) ↔ (r.src = nm b)) := by
      intro b hb
      constructor
      · rintro rfl; exact hsnm.symm
      · intro hx
        have := hB b hb
        rw [← hx, hsk] at this
        simpa using this
    have hdst_iff : ∀ b, b < N → ((t = b) ↔ (r.dst = nm b)) := by
      intro b hb
      constructor
      · rintro rfl; exact htnm.symm
      · intro hx
        have := hB b hb
        rw [← hx, htk] at this
        simpa using this
    have hcap_s : connCountIn acc s < 15 := by
      have hi := hinv s hsN
      rw [refCount_cons] at hi
      rw [if_pos ((hsrc_iff s hsN).mp rfl)] at hi
      omega
    have hcap_t : connCountIn acc t < 15 := by
      have hi := hinv t htN
      rw [refCount_cons] at hi
      rw [if_pos ((hdst_iff t htN).mp rfl)] at hi
      omega
    have hstep : importLoop lk acc (r :: rest) =
        importLoop lk (acc ++ [connOfRecord lk r]) rest := by
      simp only [importLoop, hsk, htk, connOfRecord, Option.getD_some]
      rw [if_pos ⟨hcap_s, hcap_t⟩]
    rw [hstep]
    rw [ih (acc ++ [connOfRecord lk r])
      (fun q hq => hres q (List.mem_cons_of_mem r hq)) ?hinv2]
    · simp [List.append_assoc]
    case hinv2 =>
      intro b hb
      have hi := hinv b hb
      rw [refCount_cons] at hi
      rw [connCountIn_append_list]
      have hcs : (connOfRecord lk r).src = s := by simp [connOfRecord, hsk]
      have hcd : (connOfRecord lk r).dst = t := by simp [connOfRecord, htk]
      rw [hcs, hcd]
      by_cases h1 : s = b
      · rw [if_pos h1, if_pos ((hsrc_iff b hb).mp h1)] at *
        by_cases h2 : t = b
        · rw [if_pos h2, if_pos ((hdst_iff b hb).mp h2)] at *
          omega
        · rw [if_neg h2] at *
          rw [if_neg (fun hx => h2 ((hdst_iff b hb).mpr hx))] at hi
          omega
      · rw [if_neg h1] at *
        rw [if_neg (fun hx => h1 ((hsrc_iff b hb).mpr hx))] at hi
        by_cases h2 : t = b
        · rw [if_pos h2, if_pos ((hdst_iff b hb).mp h2)] at *
          omega
        · rw [if_neg h2] at *
          rw [if_neg (fun hx => h2 ((hdst_iff b hb).mpr hx))] at hi
          omega

lemma gridBlocks_getElem_name (names : List String) (cols : Nat) (j : Nat)
    (hj : j < names.length) :
    ((((names.enum.map (fun p => gridBlock cols p.1 p.2))[j]?).map
      (fun b => b.name)).getD "") = names.get ⟨j, hj⟩ := by
  have hjb : j < (names.enum.map (fun p => gridBlock cols p.1 p.2)).length := by
    simpa using hj
  rw [List.getElem?_eq_getElem hjb]
  simp [List.getElem_map, List.getElem_enum, gridBlock]

lemma map_eq_self {α : Type} (f : α → α) :
    ∀ l : List α, (∀ c ∈ l, f c = c) → l.map f = l := by
  intro l
  induction l with
  | nil => intro _; rfl
  | cons a t ih =>
    intro h
    rw [List.map_cons, h a (List.mem_cons_self a t),
        ih (fun c hc => h c (List.mem_cons_of_mem a hc))]

/-- C10, amended.  When the file carries the `fifo_infos` key,
`import_fifo_format` discards the entire pre-existing design (the result
does not depend on it at all) and builds a fresh diagram with exactly
one block per distinct referenced name, in ascending name order on the
grid; the file's connections are imported into it, each record being
skipped only when an endpoint block is at the 15-connection capacity —
when every name is referenced at most 15 times, the resulting
connections are exactly the file's records. -/
theorem C10_fifo_format_import (d : Diagram) (f : JsonFile) (recs : List ConnRecord)
    (hf : f.fifo_infos = some recs) :
    (fifo_format_import d f = fifo_format_import emptyDiagram f) ∧
    ((fifo_format_import d f).blocks =
      (fifoBlockNames recs).enum.map
        (fun p => gridBlock (pyCeilSqrt (fifoBlockNames recs).length) p.1 p.2)) ∧
    ((fifo_format_import d f).blocks.map (fun b => b.name) = fifoBlockNames recs) ∧
    (fifoBlockNames recs).Nodup ∧
    List.Pairwise (fun a b => strLe a b = true) (fifoBlockNames recs) ∧
    (∀ s, s ∈ fifoBlockNames recs ↔ ∃ r ∈ recs, r.src = s ∨ r.dst = s) ∧
    ((∀ s, refCount recs s ≤ 15) →
      (fifo_format_import d f).conns.map (connRecordOf (fifo_format_import d f)) = recs) := by
  have hunf : fifo_format_import d f =
      { blocks := (fifoBlockNames recs).enum.map
          (fun p => gridBlock (pyCeilSqrt (fifoBlockNames recs).length) p.1 p.2),
        conns := importLoop
          (lookupName (buildBlockMap ((fifoBlockNames recs).enum.map
            (fun p => gridBlock (pyCeilSqrt (fifoBlockNames recs).length) p.1 p.2)))) []
          recs } := by
    unfold fifo_format_import
    rw [hf]
  have hunf2 : fifo_format_import emptyDiagram f =
      fifo_format_import d f := by
    unfold fifo_format_import
    rw [hf]
  refine ⟨hunf2.symm, ?_, ?_, fifoBlockNames_nodup recs, ?_, fifoBlockNames_mem recs, ?_⟩
  · rw [hunf]
  · rw [hunf]
    exact gridBlocks_names _ _
  · unfold fifoBlockNames
    exact pySort_pairwise _
  · intro hcap
    set names := fifoBlockNames recs with hnames_def
    set cols := pyCeilSqrt names.length with hcols_def
    set blocks := names.enum.map (fun p => gridBlock cols p.1 p.2) with hblocks_def
    set lk := lookupName (buildBlockMap blocks) with hlk_def
    set nm : Nat → String := fun i => (((blocks[i]?).map (fun b => b.name)).getD "")
      with hnm_def
    have hblen : blocks.length = names.length := by simp [hblocks_def]
    have hnd : (blocks.map (fun b => b.name)).Nodup := by
      rw [hblocks_def, gridBlocks_names]
      exact fifoBlockNames_nodup recs
    have hnm_names : ∀ j, (hj : j < names.length) → nm j = names.get ⟨j, hj⟩ := by
      intro j hj
      exact gridBlocks_getElem_name names cols j hj
    have hA : ∀ x i, lk x = some i → i < blocks.length ∧ nm i = x := by
      intro x i h
      obtain ⟨hb, hname⟩ := buildBlockMap_char (lookupName_mem h)
      refine ⟨hb, ?_⟩
      rw [hnm_def]
      simp only [List.getElem?_eq_getElem hb, Option.map_some, Option.getD_some]
      exact hname
    have hB : ∀ i, i < blocks.length → lk (nm i) = some i := by
      intro i hi
      exact lookup_blockNameAt ⟨blocks, []⟩ hnd hi
    have hres : ∀ r ∈ recs, (lk r.src).isSome ∧ (lk r.dst).isSome := by
      intro r hr
      constructor
      · have hsmem : r.src ∈ names := (fifoBlockNames_mem recs r.src).mpr ⟨r, hr, Or.inl rfl⟩
        obtain ⟨⟨j, hj⟩, hget⟩ := List.mem_iff_get.mp hsmem
        have : lk (nm j) = some j := hB j (by omega)
        rw [hnm_names j hj, hget] at this
        rw [this]
        rfl
      · have hdmem : r.dst ∈ names := (fifoBlockNames_mem recs r.dst).mpr ⟨r, hr, Or.inr rfl⟩
        obtain ⟨⟨j, hj⟩, hget⟩ := List.mem_iff_get.mp hdmem
        have : lk (nm j) = some j := hB j (by omega)
        rw [hnm_names j hj, hget] at this
        rw [this]
        rfl
    have hloop := importLoop_complete lk nm blocks.length hA hB recs []
      hres
      (by
        intro b hb
        have : connCountIn [] b = 0 := rfl
        rw [this]
        have := hcap (nm b)
        omega)
    rw [hunf]
    show (importLoop lk [] recs).map
      (connRecordOf { blocks := blocks, conns := importLoop lk [] recs }) = recs
    rw [hloop, List.nil_append, List.map_map]
    apply map_eq_self
    intro r hr
    obtain ⟨hs1, hd1⟩ := hres r hr
    obtain ⟨s, hsk⟩ := Option.isSome_iff_exists.mp hs1
    obtain ⟨t, htk⟩ := Option.isSome_iff_exists.mp hd1
    obtain ⟨hsN, hsnm⟩ := hA _ _ hsk
    obtain ⟨htN, htnm⟩ := hA _ _ htk
    show connRecordOf _ (connOfRecord lk r) = r
    unfold connRecordOf connOfRecord blockNameAt
    rw [hsk, htk]
    simp only [Option.getD_some]
    have hns : ((blocks[s]?).map (fun b => b.name)).getD "" = r.src := hsnm
    have hnt : ((blocks[t]?).map (fun b => b.name)).getD "" = r.dst := htnm
    rw [hns, hnt]

/-- A FIFO-format file with a single connection record. -/
def fifoFile1 : JsonFile :=
  { blocks := none,
    fifo_infos := some [⟨"F", "A", 0, "B", 0, 16, 32⟩],
    connections := none }

/-- Witness for C10 on the one-record file. -/
theorem C10_fifo_format_import_witness :
    (fifo_format_import diagramAB fifoFile1 = fifo_format_import emptyDiagram fifoFile1) ∧
    ((fifo_format_import diagramAB fifoFile1).blocks =
      (fifoBlockNames [⟨"F", "A", 0, "B", 0, 16, 32⟩]).enum.map
        (fun p => gridBlock
          (pyCeilSqrt (fifoBlockNames [⟨"F", "A", 0, "B", 0, 16, 32⟩]).length) p.1 p.2)) ∧
    ((fifo_format_import diagramAB fifoFile1).blocks.map (fun b => b.name) =
      fifoBlockNames [⟨"F", "A", 0, "B", 0, 16, 32⟩]) ∧
    (fifoBlockNames [⟨"F", "A", 0, "B", 0, 16, 32⟩]).Nodup ∧
    List.Pairwise (fun a b => strLe a b = true)
      (fifoBlockNames [⟨"F", "A", 0, "B", 0, 16, 32⟩]) ∧
    (∀ s, s ∈ fifoBlockNames [⟨"F", "A", 0, "B", 0, 16, 32⟩] ↔
      ∃ r ∈ [(⟨"F", "A", 0, "B", 0, 16, 32⟩ : ConnRecord)], r.src = s ∨ r.dst = s) ∧
    ((∀ s, refCount [⟨"F", "A", 0, "B", 0, 16, 32⟩] s ≤ 15) →
      (fifo_format_import diagramAB fifoFile1).conns.map
        (connRecordOf (fifo_format_import diagramAB fifoFile1)) =
      [⟨"F", "A", 0, "B", 0, 16, 32⟩]) :=
  C10_fifo_format_import diagramAB fifoFile1 [⟨"F", "A", 0, "B", 0, 16, 32⟩] rfl

/-- A FIFO-format file with 16 copies of the same record. -/
def fifoFile16 : JsonFile :=
  { blocks := none,
    fifo_infos := some (List.replicate 16 ⟨"F", "A", 0, "B", 0, 16, 32⟩),
    connections := none }

/-- Counterexample to C10 as stated: the 16-record file produces only 15
connections — the 16th record is skipped by the capacity check, so the
fresh diagram does not contain all of the file's connections. -/
theorem C10_fifo_format_import_counterexample :
    fifoFile16.fifo_infos =
      some (List.replicate 16 (⟨"F", "A", 0, "B", 0, 16, 32⟩ : ConnRecord)) ∧
    (List.replicate 16 (⟨"F", "A", 0, "B", 0, 16, 32⟩ : ConnRecord)).length = 16 ∧
    (fifo_format_import emptyDiagram fifoFile16).conns.length = 15 :=
  ⟨rfl, by decide, by decide⟩

end PipeTool
